import Mathlib

/-!
# Verification of the pairwise-alignment benchmark orchestrator

A shallow embedding of the benchmark orchestrator (crates `pa-bench-types`,
`orchestrator`, `runner`) and proofs about its job planning, worker-pool
skipping, cancellation, child-exit classification and cost verification.

Modelling conventions:
* Rust `f32` fields (`error_rate`, `p_correct`, measured times) are embedded
  as `ℚ`; the claims only use equality, order and exact fractions on them.
* Rust `usize`/`u64`/`Bytes` become `Nat`, `i32`/`i64` become `Int`,
  `PathBuf` becomes `String`.
* Fallible code (assertion failures / panics) returns `Except`.
* `ErrorModel` and `AlignStats` come from crates outside `src/`
  (`pa_generate` resp. `orchestrator/src/stats.rs`); they are modelled from
  the spec as records whose contents the verified code never inspects
  beyond equality (and, for `ErrorModel`, its Debug rendering).
-/

/-- Modelled from the spec: `ErrorModel` is a dataset parameter from the
external `pa_generate` crate.  The orchestrator code only compares it for
equality and renders it with `{:?}` (Debug); we embed it as an abstract tag
with an injective debug rendering. -/
structure ErrorModel where
  tag : Nat
deriving DecidableEq, Repr

/-- Debug rendering of an `ErrorModel`, standing in for Rust's `{:?}`. -/
def ErrorModel.debugStr (e : ErrorModel) : String :=
  "ErrorModel" ++ toString e.tag

/-- Rust `GeneratedDataset` from `pa-bench-types/src/lib.rs`.
The Rust field `prefix: PathBuf` is embedded as `prefix0 : String`
(the identifier `prefix` is a Lean keyword-like token), `error_rate: f32`
as `ℚ`. -/
structure GeneratedDataset where
  prefix0 : String
  seed : Nat
  error_model : ErrorModel
  error_rate : ℚ
  length : Nat
  total_size : Nat
  pattern_length : Option Nat
deriving DecidableEq, Repr

/-- Rust `GeneratedDataset::is_larger_than` from `pa-bench-types/src/lib.rs`. -/
def GeneratedDataset.is_larger_than (s o : GeneratedDataset) : Bool :=
  decide (s.error_model = o.error_model)
    && decide (s.pattern_length = o.pattern_length)
    && decide (s.error_rate ≥ o.error_rate)
    && decide (s.length ≥ o.length)
    && decide (s.total_size ≥ o.total_size)

/-- Rust `GeneratedDataset::name`: `format!("{:?}-t{}-n{}-e{}.seq", error_model,
total_size, length, error_rate)`. -/
def GeneratedDataset.name (d : GeneratedDataset) : String :=
  d.error_model.debugStr ++ "-t" ++ toString d.total_size ++ "-n"
    ++ toString d.length ++ "-e" ++ toString d.error_rate ++ ".seq"

/-- Rust `GeneratedDataset::path`: `prefix.join(name())`. -/
def GeneratedDataset.path (d : GeneratedDataset) : String :=
  d.prefix0 ++ "/" ++ d.name

/-- Rust `Dataset` from `pa-bench-types/src/lib.rs`. -/
inductive Dataset where
  | generated (d : GeneratedDataset)
  | file (path : String)
  | data (pairs : List (String × String))
deriving DecidableEq, Repr

/-- Rust `Dataset::is_generated`. -/
def Dataset.is_generated : Dataset → Bool
  | .generated _ => true
  | _ => false

/-- Modelled from the spec: `CostModel {match, sub, open, extend}` (signed
integers) from the external `pa_types` crate; `match`/`open` are Lean
keywords, hence `match_`/`open_`. -/
structure CostModel where
  match_ : Int
  sub : Int
  open_ : Int
  extend : Int
deriving DecidableEq, Repr

/-- Modelled from the spec: the unit cost model is `(0,1,0,1)`;
`CostModel::is_unit` from `pa_types` tests for it. -/
def CostModel.is_unit (cm : CostModel) : Bool :=
  decide (cm.match_ = 0) && decide (cm.sub = 1)
    && decide (cm.open_ = 0) && decide (cm.extend = 1)

/-- Rust `BlockAlignerParams` from `pa-bench-types/src/algorithms.rs`. -/
structure BlockAlignerParams where
  min_size : Nat
  max_size : Nat
deriving DecidableEq, Repr

/-- The algorithm tagged union from `pa-bench-types/src/algorithms.rs`
(`Job.algo`'s type; the union over supported algorithm families). -/
inductive AlgorithmParams where
  | blockAligner (p : BlockAlignerParams)
  | parasailStriped (p : Unit)
deriving DecidableEq, Repr

/-- Modelled from the spec: `AlignStats` (a per-dataset length-distribution
summary computed by `orchestrator/src/stats.rs`, which is not under `src/`).
No claim inspects its contents. -/
structure AlignStats where
  seq_cnt : Nat := 0
  total_len : Nat := 0
deriving DecidableEq, Repr

/-- Rust `Job` from `pa-bench-types/src/lib.rs`; `mem_limit: Bytes` as `Nat`. -/
structure Job where
  time_limit : Nat
  mem_limit : Nat
  dataset : Dataset
  costs : CostModel
  traceback : Bool
  algo : AlgorithmParams
deriving DecidableEq, Repr

/-- Rust `Job::is_same_as`: equality on everything except resource limits. -/
def Job.is_same_as (s o : Job) : Bool :=
  decide (s.dataset = o.dataset) && decide (s.costs = o.costs)
    && decide (s.traceback = o.traceback) && decide (s.algo = o.algo)

/-- Rust `Job::has_more_resources_than`: componentwise `≥` on both limits. -/
def Job.has_more_resources_than (s o : Job) : Bool :=
  decide (s.time_limit ≥ o.time_limit) && decide (s.mem_limit ≥ o.mem_limit)

/-- Rust `Job::same_input`: same dataset and same cost model. -/
def Job.same_input (s o : Job) : Bool :=
  decide (s.dataset = o.dataset) && decide (s.costs = o.costs)

/-- Rust `Job::is_larger` from `pa-bench-types/src/lib.rs`: both datasets must be
Generated; same `(costs, algo, traceback)`; resources `≤`; Generated
parameters `≥`. -/
def Job.is_larger (s o : Job) : Bool :=
  match s.dataset, o.dataset with
  | .generated self_args, .generated o_args =>
      decide (s.costs = o.costs)
        && decide (s.algo = o.algo)
        && decide (s.traceback = o.traceback)
        && decide (s.time_limit ≤ o.time_limit)
        && decide (s.mem_limit ≤ o.mem_limit)
        && self_args.is_larger_than o_args
  | _, _ => false

/-- Rust `Measured` from `pa-bench-types/src/lib.rs` (timestamps abstracted to
`Nat`, `f32` to `ℚ`). -/
structure Measured where
  runtime : ℚ
  memory : Nat
  time_start : Nat
  time_end : Nat
  cpu_start : Option Int
  cpu_end : Option Int
  cpu_freq_start : Option ℚ
  cpu_freq_end : Option ℚ
deriving DecidableEq, Repr

/-- Rust `JobOutput` from `pa-bench-types/src/lib.rs`; `Cost` as `Int`. -/
structure JobOutput where
  costs : List Int
  exact_costs : Option (List Int)
  is_exact : Bool
  p_correct : Option ℚ
  measured : Measured
deriving DecidableEq, Repr

/-- The `JobError` enum as DECLARED in `pa-bench-types/src/lib.rs`
(lines 175-192): it has exactly the variants
`{Skipped, Interrupted, Panic, Timeout, MemoryLimit, Signal(i32)}` —
note the absence of `Unsupported` and `ExitCode`. -/
inductive JobError where
  | skipped
  | interrupted
  | panic
  | timeout
  | memoryLimit
  | signal (s : Int)
deriving DecidableEq, Repr

/-- The `JobError` type as USED by `orchestrator/src/main.rs` (`run_job`
lines 461-476 and the counter update line 373), which additionally
references the constructors `JobError::Unsupported` and
`JobError::ExitCode(code)`.  This is the error type the orchestrator code
is written against. -/
inductive JobErrorMain where
  | skipped
  | interrupted
  | panic
  | timeout
  | memoryLimit
  | unsupported
  | signal (s : Int)
  | exitCode (c : Int)
deriving DecidableEq, Repr

/-- The evident embedding of the declared `JobError` enum into the error
type used by `main.rs` (each declared variant kept). -/
def JobError.toMain : JobError → JobErrorMain
  | .skipped => .skipped
  | .interrupted => .interrupted
  | .panic => .panic
  | .timeout => .timeout
  | .memoryLimit => .memoryLimit
  | .signal s => .signal s

/-- Rust `ResourceUsage` as used by `orchestrator/src/main.rs` (walltime,
usertime, systemtime as `f32` → `ℚ`; maxrss as `Nat`). -/
structure ResourceUsage where
  walltime : ℚ
  usertime : ℚ
  systemtime : ℚ
  maxrss : Nat
deriving DecidableEq, Repr

/-- Rust `ResourceUsage::default()`: all zero. -/
def ResourceUsage.default0 : ResourceUsage :=
  { walltime := 0, usertime := 0, systemtime := 0, maxrss := 0 }

instance exceptDecEq {ε α : Type} [DecidableEq ε] [DecidableEq α] :
    DecidableEq (Except ε α) := fun x y =>
  match x, y with
  | .ok a, .ok b =>
    if h : a = b then isTrue (by rw [h]) else
      isFalse (fun hc => h (Except.ok.inj hc))
  | .error a, .error b =>
    if h : a = b then isTrue (by rw [h]) else
      isFalse (fun hc => h (Except.error.inj hc))
  | .ok _, .error _ => isFalse (fun hc => Except.noConfusion hc)
  | .error _, .ok _ => isFalse (fun hc => Except.noConfusion hc)

/-- Rust `JobResult` as constructed by `orchestrator/src/main.rs`
(`run_with_threads` / `run_job`): job, stats, resources and
`output: Result<JobOutput, JobError>`. -/
structure JobResult where
  job : Job
  stats : AlignStats
  resources : ResourceUsage
  output : Except JobErrorMain JobOutput
deriving DecidableEq, Repr

/-- Rust `Result::is_ok`. -/
def exceptIsOk : Except JobErrorMain JobOutput → Bool
  | .ok _ => true
  | .error _ => false

/-- Rust `Result::is_err`. -/
def exceptIsErr (o : Except JobErrorMain JobOutput) : Bool :=
  !exceptIsOk o

/-! ## Incremental planner (`main`, `orchestrator/src/main.rs` lines 148-164) -/

/-- The predicate inside `jobs.retain(..)`: the candidate `j` is kept when no
existing result matches it with success-or-enough-resources. -/
def keepJob (rerun_failed : Bool) (existing : List JobResult) (j : Job) : Bool :=
  (existing.find? (fun existing_job =>
      existing_job.job.is_same_as j
        && (exceptIsOk existing_job.output
            || (!rerun_failed && existing_job.job.has_more_resources_than j)))).isNone

/-- The `if args.incremental { jobs.retain(..) }` step of `main`. -/
def planJobs (incremental rerun_failed : Bool) (existing : List JobResult)
    (jobs : List (Job × AlignStats)) : List (Job × AlignStats) :=
  if incremental then
    jobs.filter (fun js => keepJob rerun_failed existing js.1)
  else jobs

/-! ## Worker pool (`run_with_threads`, `orchestrator/src/main.rs` 294-400) -/

/-- The dynamic in-batch skip decision (`main.rs` lines 342-354): the
dataset must be Generated and some previously accumulated result must be a
Failure on a Generated dataset with `job.is_larger(&prev.job)`. -/
def skipDecision (acc : List JobResult) (job : Job) : Bool :=
  job.dataset.is_generated
    && acc.any (fun prev =>
        exceptIsErr prev.output
          && prev.job.dataset.is_generated
          && job.is_larger prev.job)

/-- The result synthesized for a skipped job (`main.rs` lines 356-362):
default resources and `Err(JobError::Skipped)`, no child spawned. -/
def skippedResult (job : Job) (stats : AlignStats) : JobResult :=
  { job := job, stats := stats, resources := ResourceUsage.default0,
    output := .error .skipped }

/-- One worker iteration body: skip or execute.  `exec` abstracts
`run_job`'s child process (`main.rs` lines 356-365). -/
def workerStep (exec : Job → AlignStats → JobResult) (acc : List JobResult)
    (job : Job) (stats : AlignStats) : JobResult :=
  if skipDecision acc job then skippedResult job stats else exec job stats

/-- The worker loop (`main.rs` lines 335-392) of a single worker, with the
cancellation flag modelled as a boolean function of time `flag : Nat → Bool`
(`true` = still running).  Each iteration reads the flag at time `t`
(the `if !*running { break }` check) and, for non-Success outcomes, again at
`t+1` (the push guard `output.is_ok() || *running`).  Results are recorded
together with the time of their push-guard read. -/
def workerRun (exec : Job → AlignStats → JobResult) (flag : Nat → Bool) :
    List (Job × AlignStats) → Nat → List (JobResult × Nat) →
    List (JobResult × Nat)
  | [], _, acc => acc
  | (job, stats) :: rest, t, acc =>
    if flag t = false then acc
    else
      let r := workerStep exec (acc.map Prod.fst) job stats
      let acc' := if exceptIsOk r.output || flag (t + 1)
        then acc ++ [(r, t + 1)] else acc
      workerRun exec flag rest (t + 2) acc'

/-- The cancellation flag starts `true` and is only ever set to `false` by
the SIGINT handler: once `false` it stays `false`. -/
def FlagMono (flag : Nat → Bool) : Prop :=
  ∀ i j : Nat, i ≤ j → flag j = true → flag i = true

/-! ## Job executor (`run_job`, `orchestrator/src/main.rs` 402-484) -/

/-- A child's exit status: at most one of an exit code and a killing signal
(POSIX `ExitStatus`); `success()` means code 0. -/
structure ExitStatus where
  code : Option Int
  signal : Option Int
deriving DecidableEq, Repr

/-- Rust `ExitStatus::success()`. -/
def ExitStatus.success (st : ExitStatus) : Bool := decide (st.code = some 0)

/-- What `run_job` does with a child's exit status: parse stdout as
`JobOutput` on success, classify a failure, or hit the
`panic!("Unknown exit type")` branch. -/
inductive StatusClass where
  | success
  | failure (e : JobErrorMain)
  | fatal
deriving DecidableEq, Repr

/-- The classification in `run_job` (`main.rs` lines 446-476): success →
parse stdout; killed by signal 2/6/9 → Interrupted/MemoryLimit/Timeout,
other signal n → Signal(n); exit code 101/102 → Panic/Unsupported, other
code → ExitCode(code); neither → fatal panic. -/
def classifyStatus (st : ExitStatus) : StatusClass :=
  if st.success then .success
  else
    match st.signal with
    | some 2 => .failure .interrupted
    | some 6 => .failure .memoryLimit
    | some 9 => .failure .timeout
    | some s => .failure (.signal s)
    | none =>
      match st.code with
      | some 101 => .failure .panic
      | some 102 => .failure .unsupported
      | some c => .failure (.exitCode c)
      | none => .fatal

/-! ## Cost verifier (`verify_costs`, `orchestrator/src/main.rs` 235-292) -/

/-- Whether a result is a Success with `is_exact = true`. -/
def isExactSuccess (r : JobResult) : Bool :=
  match r.output with
  | .ok o => o.is_exact
  | .error _ => false

/-- The stable sort `results.sort_by_key(|res| !is_exact_success)`
(`main.rs` line 237).  A stable sort on a boolean key is exactly: the
entries with key `false` (exact successes) in order, then the rest in
order. -/
def verifySort (results : List JobResult) : List JobResult :=
  results.filter (fun r => isExactSuccess r)
    ++ results.filter (fun r => !isExactSuccess r)

/-- Whether `ref` can serve as reference for a result of job `j`: Success,
same input (dataset and costs) and exact (`main.rs` lines 249-258). -/
def isExactRef (j : Job) (ref : JobResult) : Bool :=
  ref.job.same_input j
    && (match ref.output with
        | .ok refOut => refOut.is_exact
        | .error _ => false)

/-- The costs of a Success result (used only on Success entries). -/
def outputCosts (r : JobResult) : List Int :=
  match r.output with
  | .ok o => o.costs
  | .error _ => []

/-- The two assertion failures of `verify_costs`, carrying the two jobs
named in the panic message. -/
inductive VErr where
  | lenMismatch (job1 job2 : Job)
  | exactMismatch (job1 job2 : Job)
deriving DecidableEq, Repr

/-- Rust `num_correct`: the number of positions where the two cost vectors
agree (`main.rs` lines 282-287). -/
def countCorrect (a b : List Int) : Nat :=
  (a.zip b).countP (fun p => decide (p.1 = p.2))

/-- The updated output of an approximate result whose exact reference has
costs `c`: `exact_costs = Some(c.clone())` and `p_correct = num_correct /
len` (`main.rs` lines 280-288; the `f32` division is embedded as the exact
rational `mkRat`). -/
def updateOutput (o : JobOutput) (c : List Int) : JobOutput :=
  { o with exact_costs := some c,
           p_correct := some (mkRat (countCorrect o.costs c) o.costs.length) }

/-- The body of the inner `for reference_result in earlier_results` loop
(`main.rs` lines 249-290) acting on the current output `st` of the result
being verified: skip non-references, assert equal lengths, then either
assert equal costs (exact) or update `exact_costs`/`p_correct`
(approximate). -/
def refStep (rjob : Job) (st : JobOutput) (ref : JobResult) :
    Except VErr JobOutput :=
  if ref.job.same_input rjob = false then .ok st
  else
    match ref.output with
    | .error _ => .ok st
    | .ok refOut =>
      if refOut.is_exact = false then .ok st
      else if st.costs.length ≠ refOut.costs.length then
        .error (.lenMismatch rjob ref.job)
      else if st.is_exact then
        if st.costs ≠ refOut.costs then
          .error (.exactMismatch rjob ref.job)
        else .ok st
      else .ok (updateOutput st refOut.costs)

/-- Runs `refStep` over the earlier results in order. -/
def refFold (rjob : Job) (st : JobOutput) : List JobResult →
    Except VErr JobOutput
  | [] => .ok st
  | ref :: refs =>
    match refStep rjob st ref with
    | .error e => .error e
    | .ok st' => refFold rjob st' refs

/-- Verifying one result against the (already processed) earlier entries:
failed jobs are left alone (`main.rs` lines 243-246). -/
def processOne (earlier : List JobResult) (r : JobResult) :
    Except VErr JobResult :=
  match r.output with
  | .error _ => .ok r
  | .ok out =>
    match refFold r.job out earlier with
    | .error e => .error e
    | .ok out' => .ok { r with output := .ok out' }

/-- The `for i in 0..results.len()` loop of `verify_costs`: processes each
entry against the earlier (already processed) ones. -/
def verifyGo (done : List JobResult) : List JobResult →
    Except VErr (List JobResult)
  | [] => .ok done
  | r :: rest =>
    match processOne done r with
    | .error e => .error e
    | .ok r' => verifyGo (done ++ [r']) rest

/-- Rust `verify_costs` (`main.rs` 235-292): stable exact-first sort, then the
in-place verification loop; an assertion failure aborts the run. -/
def verify_costs (results : List JobResult) : Except VErr (List JobResult) :=
  verifyGo [] (verifySort results)

/-- An approximate result updated against reference costs `c`. -/
def updateResult (r : JobResult) (o : JobOutput) (c : List Int) : JobResult :=
  { r with output := .ok (updateOutput o c) }

/-- The costs of the first eligible reference among `earlier` for job `j`,
if any. -/
def firstRefCosts (earlier : List JobResult) (j : Job) : Option (List Int) :=
  (earlier.find? (fun ref => isExactRef j ref)).map outputCosts

/-- The last eligible reference in `earlier` for job `j`; because the loop
in `verify_costs` has no `break`, this is the reference whose values
survive in the updated output. -/
def lastMatch (earlier : List JobResult) (j : Job) : Option JobResult :=
  (earlier.filter (fun ref => isExactRef j ref)).getLast?

/-- The relation between a result and its processed version: everything is
preserved except possibly `exact_costs`/`p_correct` inside a Success
output. -/
def refEquiv (a b : JobResult) : Prop :=
  b.job = a.job ∧ b.stats = a.stats ∧ b.resources = a.resources
    ∧ ((∃ e, a.output = .error e ∧ b.output = .error e)
        ∨ (∃ oa ob, a.output = .ok oa ∧ b.output = .ok ob
            ∧ ob.costs = oa.costs ∧ ob.is_exact = oa.is_exact))

/-- No two exact Success entries on the same input disagree on costs. -/
def ExactConsistent (l : List JobResult) : Prop :=
  ∀ a ∈ l, ∀ b ∈ l, ∀ oa ob : JobOutput,
    a.output = .ok oa → b.output = .ok ob →
    oa.is_exact = true → ob.is_exact = true →
    a.job.same_input b.job = true → oa.costs = ob.costs

/-! ## Merging and the tail of `main` (`orchestrator/src/main.rs` 195-232) -/

/-- The corpus merge (`main.rs` lines 210-220): drop existing entries whose
job matches an executed one, then append the executed batch. -/
def mergeResults (existing job_results : List JobResult) : List JobResult :=
  existing.filter (fun existing_job =>
      (job_results.find? (fun job => job.job.is_same_as existing_job.job)).isNone)
    ++ job_results

/-- The observable outputs of the tail of `main`: the session log written
to `logs_dir` (line 206), the merged corpus written to `results_path`
(line 226), and the in-memory result of `verify_costs` (line 231, after
both writes; its value is never written anywhere). -/
structure MainOutcome where
  sessionLog : List JobResult
  persisted : List JobResult
  verified : Except VErr (List JobResult)
deriving Repr

/-- The tail of `main` after `run_with_threads` returns `job_results`:
write the session log, merge, write the corpus, then verify. -/
def mainTail (existing job_results : List JobResult) : MainOutcome :=
  { sessionLog := job_results,
    persisted := mergeResults existing job_results,
    verified := verify_costs (mergeResults existing job_results) }

/-! ## Aligner constructors (`runner/src/wrappers/{edlib,parasail}.rs`) -/

/-- Edlib's task: compute distance only, or also a path (traceback). -/
inductive EdlibTask where
  | distance
  | path
deriving DecidableEq, Repr

/-- The part of `EdlibAlignConfigRs` set by the wrapper. -/
structure EdlibConfig where
  task : EdlibTask
deriving DecidableEq, Repr

/-- The `Edlib` aligner (`runner/src/wrappers/edlib.rs`). -/
structure Edlib where
  config : EdlibConfig
deriving DecidableEq, Repr

/-- Rust `<EdlibParams as AlignerParams>::default` (`edlib.rs` lines 12-19):
`assert!(cm.is_unit())`, then a default config, with task PATH when
traceback is requested. -/
def edlibDefault (cm : CostModel) (trace : Bool) (_max_len : Nat) :
    Except String Edlib :=
  if !cm.is_unit then .error "assertion failed: cm.is_unit()"
  else .ok { config := { task := if trace then .path else .distance } }

/-- The substitution matrix built by `Matrix::create("ACGT", match, -sub)`. -/
structure ParasailMatrix where
  alphabet : String
  match_score : Int
  mismatch_score : Int
deriving DecidableEq, Repr

/-- The `ParasailStriped` aligner (`runner/src/wrappers/parasail.rs`). -/
structure ParasailStriped where
  matrix : ParasailMatrix
  gap_open : Int
  gap_extend : Int
deriving DecidableEq, Repr

/-- Rust `<ParasailStripedParams as AlignerParams>::default` (`parasail.rs`
lines 14-27): `assert!(!trace)`, then the striped aligner with
`gap_open = open + extend`, `gap_extend = extend`. -/
def parasailStripedDefault (cm : CostModel) (trace : Bool) (_max_len : Nat) :
    Except String ParasailStriped :=
  if trace then .error "assertion failed: !trace"
  else .ok { matrix := { alphabet := "ACGT", match_score := cm.match_,
                         mismatch_score := -cm.sub },
             gap_open := cm.open_ + cm.extend,
             gap_extend := cm.extend }

/-! ## Concrete values used by witnesses and counterexamples -/

/-- The unit cost model `(0,1,0,1)`. -/
def cmUnit : CostModel := { match_ := 0, sub := 1, open_ := 0, extend := 1 }

/-- A fixed measurement record (contents irrelevant). -/
def m0 : Measured :=
  { runtime := 0, memory := 0, time_start := 0, time_end := 0,
    cpu_start := none, cpu_end := none,
    cpu_freq_start := none, cpu_freq_end := none }

/-- Empty per-dataset stats. -/
def s0 : AlignStats := {}

/-- An exact-algorithm job on the file dataset `a.seq`. -/
def j0 : Job :=
  { time_limit := 60, mem_limit := 1000, dataset := .file "a.seq",
    costs := cmUnit, traceback := false, algo := .parasailStriped () }

/-- An approximate-algorithm job on the same input as `j0`. -/
def j1 : Job :=
  { j0 with algo := .blockAligner { min_size := 1, max_size := 2 } }

/-- A second exact-algorithm job on the same input as `j0`. -/
def j2 : Job :=
  { j0 with algo := .blockAligner { min_size := 5, max_size := 6 } }

/-- Exact output with costs `[3,1,4]`. -/
def oE : JobOutput :=
  { costs := [3, 1, 4], exact_costs := none, is_exact := true,
    p_correct := none, measured := m0 }

/-- Approximate output with costs `[3,2,4]`. -/
def oA : JobOutput :=
  { costs := [3, 2, 4], exact_costs := none, is_exact := false,
    p_correct := none, measured := m0 }

/-- Exact result row for `j0`. -/
def RE : JobResult :=
  { job := j0, stats := s0, resources := ResourceUsage.default0,
    output := .ok oE }

/-- A second measurement record, distinct from `m0`. -/
def m1 : Measured := { m0 with runtime := 1 }

/-- Second exact output, same costs as `oE`, different measurement. -/
def oE2 : JobOutput := { oE with measured := m1 }

/-- Second exact result row (algorithm `j2`), same costs as `RE`. -/
def RE2 : JobResult :=
  { job := j2, stats := s0, resources := ResourceUsage.default0,
    output := .ok oE2 }

/-- Approximate result row for `j1`. -/
def RA : JobResult :=
  { job := j1, stats := s0, resources := ResourceUsage.default0,
    output := .ok oA }

/-- A three-row session: one approximate and two exact results on the same
input. -/
def resultsW : List JobResult := [RA, RE, RE2]

/-- A small Generated dataset. -/
def gd1 : GeneratedDataset :=
  { prefix0 := "data", seed := 1, error_model := { tag := 0 },
    error_rate := mkRat 1 10, length := 100, total_size := 1000,
    pattern_length := none }

/-- Same parameters as `gd1` but another seed. -/
def gdSeed : GeneratedDataset := { gd1 with seed := 99 }

/-- A larger Generated dataset (longer sequences, larger total size,
different seed). -/
def gdBig : GeneratedDataset :=
  { gd1 with seed := 2, length := 200, total_size := 2000 }

/-- The job on the small Generated dataset. -/
def jobSmall : Job :=
  { time_limit := 60, mem_limit := 1000, dataset := .generated gd1,
    costs := cmUnit, traceback := false, algo := .parasailStriped () }

/-- The same job on the larger Generated dataset, equal resources. -/
def jobBig : Job := { jobSmall with dataset := .generated gdBig }

/-- A failed (timed-out) result for the small job. -/
def pFail : JobResult :=
  { job := jobSmall, stats := s0, resources := ResourceUsage.default0,
    output := .error .timeout }

/-- Accumulator containing only the failed small job. -/
def accW : List JobResult := [pFail]

/-- An executor stub whose children always succeed with output `oE`. -/
def exec0 : Job → AlignStats → JobResult := fun j s =>
  { job := j, stats := s, resources := ResourceUsage.default0,
    output := .ok oE }

/-- An executor stub whose children always exit with code 1. -/
def execF : Job → AlignStats → JobResult := fun j s =>
  { job := j, stats := s, resources := ResourceUsage.default0,
    output := .error (.exitCode 1) }

/-- A cancellation flag flipped by SIGINT between times 1 and 2. -/
def flagC : Nat → Bool := fun t => decide (t < 2)

/-- A two-job session queue. -/
def jobsC : List (Job × AlignStats) := [(j0, s0), (j1, s0)]

/-- The failure row `execF` produces for `j0`. -/
def failRes : JobResult :=
  { job := j0, stats := s0, resources := ResourceUsage.default0,
    output := .error (.exitCode 1) }

example : verify_costs resultsW = .ok [RE, RE2, updateResult RA oA [3, 1, 4]] := by decide
example : skipDecision accW jobBig = true := by decide
example : workerRun execF flagC jobsC 0 [] = [(failRes, 1)] := by decide
example : (updateOutput oA [3, 1, 4]).p_correct = some (mkRat 2 3) := by decide

/-! ## Theorems -/

/-- C1: with `--incremental` set, a candidate job `j` is kept for execution
iff no prior result `p` in the loaded corpus has `p.job.is_same_as(j)` —
i.e. agrees with `j` on dataset, costs, traceback and algorithm, resource
limits ignored — together with `p.output` being Success, or `rerun_failed`
false and `p.job.has_more_resources_than(j)`, i.e. `p`'s time and memory
limits componentwise `≥` `j`'s. -/
theorem incremental_keep_iff
    (rerun_failed : Bool) (existing : List JobResult)
    (jobs : List (Job × AlignStats)) (j : Job) (s : AlignStats) :
    (j, s) ∈ planJobs true rerun_failed existing jobs ↔
      ((j, s) ∈ jobs ∧
        ¬ ∃ p ∈ existing,
          (p.job.dataset = j.dataset ∧ p.job.costs = j.costs ∧
            p.job.traceback = j.traceback ∧ p.job.algo = j.algo) ∧
          (exceptIsOk p.output = true ∨
            (rerun_failed = false ∧ p.job.time_limit ≥ j.time_limit ∧
              p.job.mem_limit ≥ j.mem_limit))) := by
  simp [planJobs, keepJob, List.mem_filter, Option.isNone_iff_eq_none,
    List.find?_eq_none, Job.is_same_as, Job.has_more_resources_than,
    not_exists, ge_iff_le, and_assoc, Bool.not_eq_true',
    Bool.and_eq_true, Bool.or_eq_true, decide_eq_true_eq]

/-- Characterization of `Job::is_larger`: both datasets Generated, equal
costs/algo/traceback, resources `≤`, and dataset parameters `≥`. -/
theorem Job.is_larger_iff (a b : Job) :
    a.is_larger b = true ↔
      ∃ ga gb, a.dataset = Dataset.generated ga ∧
        b.dataset = Dataset.generated gb ∧
        a.costs = b.costs ∧ a.algo = b.algo ∧ a.traceback = b.traceback ∧
        a.time_limit ≤ b.time_limit ∧ a.mem_limit ≤ b.mem_limit ∧
        ga.error_model = gb.error_model ∧
        ga.pattern_length = gb.pattern_length ∧
        ga.error_rate ≥ gb.error_rate ∧ ga.length ≥ gb.length ∧
        ga.total_size ≥ gb.total_size := by
  rcases h1 : a.dataset with ga | p | d <;> rcases h2 : b.dataset with gb | q | e <;>
    simp [Job.is_larger, h1, h2, GeneratedDataset.is_larger_than,
      Bool.and_eq_true, decide_eq_true_eq, ge_iff_le, and_assoc]

/-- C4: the worker pool synthesizes `Failure(Skipped)` for `job` (without
consulting the executor) precisely when some previously accumulated result
`p` has Failure output, both datasets are Generated, and
`job.is_larger(p.job)` holds: equal costs, algorithm and traceback, `job`'s
time and memory limits `≤` `p`'s, and `job`'s Generated parameters `≥`
`p`'s (same error model and pattern length; error rate, length and total
size componentwise `≥`). -/
theorem worker_skip_iff (acc : List JobResult) (job : Job) :
    (skipDecision acc job = true ↔
      ∃ p ∈ acc, exceptIsErr p.output = true ∧
        job.dataset.is_generated = true ∧ p.job.dataset.is_generated = true ∧
        ∃ ga gb, job.dataset = Dataset.generated ga ∧
          p.job.dataset = Dataset.generated gb ∧
          job.costs = p.job.costs ∧ job.algo = p.job.algo ∧
          job.traceback = p.job.traceback ∧
          job.time_limit ≤ p.job.time_limit ∧
          job.mem_limit ≤ p.job.mem_limit ∧
          ga.error_model = gb.error_model ∧
          ga.pattern_length = gb.pattern_length ∧
          ga.error_rate ≥ gb.error_rate ∧ ga.length ≥ gb.length ∧
          ga.total_size ≥ gb.total_size)
    ∧ ∀ exec stats, skipDecision acc job = true →
        workerStep exec acc job stats = skippedResult job stats := by
  constructor
  · simp only [skipDecision, Bool.and_eq_true, List.any_eq_true,
      Job.is_larger_iff]
    constructor
    · rintro ⟨hgen, p, hp, ⟨herr, hpgen⟩, ga, gb, hrest⟩
      exact ⟨p, hp, herr, hgen, hpgen, ga, gb, hrest⟩
    · rintro ⟨p, hp, herr, hgen, hpgen, ga, gb, hrest⟩
      exact ⟨hgen, p, hp, ⟨herr, hpgen⟩, ga, gb, hrest⟩
  · intro exec stats h
    simp [workerStep, h]

/-- C9: two Generated datasets agreeing on prefix, error model, error rate,
length and total size but differing in seed or pattern length have
identical `name()` and `path()`: the on-disk file name is a function of
`(error_model, total_size, length, error_rate)` only. -/
theorem generated_name_ignores_seed_and_pattern (d1 d2 : GeneratedDataset)
    (hpre : d1.prefix0 = d2.prefix0)
    (hem : d1.error_model = d2.error_model)
    (her : d1.error_rate = d2.error_rate)
    (hlen : d1.length = d2.length)
    (hts : d1.total_size = d2.total_size)
    (_hdiff : d1.seed ≠ d2.seed ∨ d1.pattern_length ≠ d2.pattern_length) :
    d1.name = d2.name ∧ d1.path = d2.path := by
  have hname : d1.name = d2.name := by
    simp [GeneratedDataset.name, hem, her, hlen, hts]
  exact ⟨hname, by simp [GeneratedDataset.path, hpre, hname]⟩

/-- Witness for C9 at concrete datasets differing only in seed. -/
theorem generated_name_ignores_seed_and_pattern_witness :
    gd1.name = gdSeed.name ∧ gd1.path = gdSeed.path :=
  generated_name_ignores_seed_and_pattern gd1 gdSeed rfl rfl rfl rfl rfl
    (Or.inl (by decide))

/-- C5: `run_job`'s classification of every child exit status: success →
parse stdout as `JobOutput` (Success); signal 2/6/9 → Interrupted /
MemoryLimit / Timeout, any other signal `n` → Signal(n); exit code 101 →
Panic, 102 → Unsupported, any other nonzero code `c` → ExitCode(c); a
status with neither code nor signal → fatal internal panic. -/
theorem run_job_classification :
    (∀ st : ExitStatus, st.success = true → classifyStatus st = .success)
    ∧ classifyStatus ⟨none, some 2⟩ = .failure .interrupted
    ∧ classifyStatus ⟨none, some 6⟩ = .failure .memoryLimit
    ∧ classifyStatus ⟨none, some 9⟩ = .failure .timeout
    ∧ (∀ n : Int, n ≠ 2 → n ≠ 6 → n ≠ 9 →
        classifyStatus ⟨none, some n⟩ = .failure (.signal n))
    ∧ classifyStatus ⟨some 101, none⟩ = .failure .panic
    ∧ classifyStatus ⟨some 102, none⟩ = .failure .unsupported
    ∧ (∀ c : Int, c ≠ 0 → c ≠ 101 → c ≠ 102 →
        classifyStatus ⟨some c, none⟩ = .failure (.exitCode c))
    ∧ classifyStatus ⟨none, none⟩ = .fatal := by
  refine ⟨?_, by decide, by decide, by decide, ?_, by decide, by decide,
    ?_, by decide⟩
  · intro st h
    simp [classifyStatus, h]
  · intro n h2 h6 h9
    simp only [classifyStatus]
    rw [if_neg (by simp [ExitStatus.success])]
  · intro c h0 h101 h102
    simp only [classifyStatus]
    rw [if_neg (by simp [ExitStatus.success, h0])]

/-- Witness for C5 at signal 15, exit code 3 and a successful exit. -/
theorem run_job_classification_witness :
    classifyStatus ⟨none, some 15⟩ = .failure (.signal 15)
    ∧ classifyStatus ⟨some 3, none⟩ = .failure (.exitCode 3)
    ∧ classifyStatus ⟨some 0, none⟩ = .success :=
  ⟨run_job_classification.2.2.2.2.1 15 (by decide) (by decide) (by decide),
   run_job_classification.2.2.2.2.2.2.2.1 3 (by decide) (by decide)
     (by decide),
   run_job_classification.1 ⟨some 0, none⟩ (by decide)⟩

/-- C3: the `JobError` enum as declared in `pa-bench-types/src/lib.rs` is
missing the `Unsupported` and `ExitCode` variants: the executor classifies
a child exiting with code 102 as Unsupported and any other nonzero code
`c ∉ {101}` as ExitCode(c), yet no value of the declared enum maps to
either, so those executor-classifiable failures are not representable in
the declared type. -/
theorem joberror_missing_variants :
    classifyStatus ⟨some 102, none⟩ = .failure JobErrorMain.unsupported
    ∧ classifyStatus ⟨some 1, none⟩ = .failure (JobErrorMain.exitCode 1)
    ∧ (∀ e : JobError, e.toMain ≠ JobErrorMain.unsupported)
    ∧ (∀ e : JobError, ∀ c : Int, e.toMain ≠ JobErrorMain.exitCode c) := by
  refine ⟨by decide, by decide, ?_, ?_⟩
  · intro e
    cases e <;> simp [JobError.toMain]
  · intro e c
    cases e <;> simp [JobError.toMain]

/-- Witness for C3: `Unsupported` is outside the image of the declared
enum. -/
theorem joberror_missing_variants_witness :
    JobError.toMain JobError.skipped ≠ JobErrorMain.unsupported
    ∧ JobError.toMain JobError.timeout ≠ JobErrorMain.exitCode 1 :=
  ⟨joberror_missing_variants.2.2.1 JobError.skipped,
   joberror_missing_variants.2.2.2 JobError.timeout 1⟩

/-- C10: `Edlib`'s constructor asserts the cost model is unit (it fails for
every non-unit cost model and succeeds for the unit one), and
`ParasailStriped`'s constructor asserts traceback is off (it fails exactly
for jobs requesting traceback); under the respective precondition neither
assertion fires. -/
theorem aligner_constructor_assertions :
    (∀ cm t l, (edlibDefault cm t l).isOk = cm.is_unit)
    ∧ (∀ cm t l, (parasailStripedDefault cm t l).isOk = !t) := by
  constructor
  · intro cm t l
    cases h : cm.is_unit <;> simp [edlibDefault, h, Except.isOk, Except.toBool]
  · intro cm t l
    cases t <;> simp [parasailStripedDefault, Except.isOk, Except.toBool]

/-- Lemma: `exceptIsErr` is the complement of `exceptIsOk`. -/
theorem exceptIsErr_eq_not_isOk (o : Except JobErrorMain JobOutput) :
    exceptIsErr o = !exceptIsOk o := rfl

/-- Every entry the worker loop records was dispatched while the flag was
still true, and a Failure entry was also pushed while the flag was still
true. -/
theorem workerRun_good (exec : Job → AlignStats → JobResult)
    (flag : Nat → Bool) (jobs : List (Job × AlignStats)) :
    ∀ t acc,
      (∀ p ∈ acc, flag (p.2 - 1) = true
        ∧ (exceptIsErr p.1.output = true → flag p.2 = true)) →
      ∀ p ∈ workerRun exec flag jobs t acc,
        flag (p.2 - 1) = true
          ∧ (exceptIsErr p.1.output = true → flag p.2 = true) := by
  induction jobs with
  | nil => intro t acc hacc p hp; exact hacc p hp
  | cons js rest ih =>
    intro t acc hacc p hp
    obtain ⟨job, stats⟩ := js
    by_cases hflag : flag t = false
    · simp only [workerRun, if_pos hflag] at hp
      exact hacc p hp
    · simp only [workerRun, if_neg hflag] at hp
      refine ih (t + 2) _ ?_ p hp
      intro q hq
      by_cases hpush :
          (exceptIsOk (workerStep exec (acc.map Prod.fst) job stats).output
            || flag (t + 1)) = true
      · simp only [if_pos hpush, List.mem_append, List.mem_singleton] at hq
        rcases hq with hq | hq
        · exact hacc q hq
        · subst hq
          constructor
          · simpa using Bool.of_not_eq_false hflag
          · intro herr
            rw [exceptIsErr_eq_not_isOk, Bool.not_eq_true'] at herr
            simpa [herr] using hpush
      · simp only [if_neg hpush] at hq
        exact hacc q hq

/-- C6 (amended): once the cancellation flag is observed false the worker
dispatches nothing further and appends nothing further; every recorded
entry was dispatched while the flag was true; a Failure outcome is appended
only if the flag is still true at push time, so any entry pushed at or
after a time when the flag was already false is a Success.  (Failure rows
pushed before the flip remain in the session results and hence in the
merged corpus.) -/
theorem workerRun_cancellation (exec : Job → AlignStats → JobResult)
    (flag : Nat → Bool) (hmono : FlagMono flag) :
    (∀ jobs t acc, flag t = false → workerRun exec flag jobs t acc = acc)
    ∧ (∀ jobs r t, (r, t) ∈ workerRun exec flag jobs 0 [] →
        flag (t - 1) = true
          ∧ (exceptIsErr r.output = true → flag t = true)
          ∧ (∀ u, u ≤ t → flag u = false → exceptIsOk r.output = true)) := by
  constructor
  · intro jobs t acc h
    cases jobs with
    | nil => rfl
    | cons js rest =>
      obtain ⟨job, stats⟩ := js
      simp only [workerRun, if_pos h]
  · intro jobs r t hmem
    have h := workerRun_good exec flag jobs 0 [] (by simp) (r, t) hmem
    refine ⟨h.1, h.2, ?_⟩
    intro u hu hflagu
    by_contra hok
    rw [Bool.not_eq_true] at hok
    have herr : exceptIsErr r.output = true := by
      rw [exceptIsErr_eq_not_isOk, hok]; rfl
    have := hmono u t hu (h.2 herr)
    rw [hflagu] at this
    exact Bool.false_ne_true this

/-- Witness for C6 (amended) on a concrete interrupted session. -/
theorem workerRun_cancellation_witness :
    flagC 0 = true ∧ flagC 1 = true ∧ workerRun execF flagC jobsC 2 [] = [] := by
  have hmono : FlagMono flagC := by
    intro i j hij hj
    simp only [flagC, decide_eq_true_eq] at hj ⊢
    omega
  have h := workerRun_cancellation execF flagC hmono
  have hgood := h.2 jobsC failRes 1 (by decide)
  exact ⟨hgood.1, hgood.2.1 (by decide), h.1 jobsC 2 [] (by decide)⟩

/-- Counterexample to C6 as stated: in an interrupted session (the flag is
true at time 0 and false from time 2 on, the second job is never
dispatched) a Failure row that completed before the flip is pushed, and the
merged corpus therefore does contain a newly-added Failure row from the
interrupted session. -/
theorem cancellation_failure_rows_counterexample :
    workerRun execF flagC jobsC 0 [] = [(failRes, 1)]
    ∧ exceptIsErr failRes.output = true
    ∧ flagC 0 = true ∧ flagC 2 = false
    ∧ FlagMono flagC
    ∧ (mergeResults []
        ((workerRun execF flagC jobsC 0 []).map Prod.fst)).any
          (fun r => exceptIsErr r.output) = true := by
  refine ⟨by decide, by decide, by decide, by decide, ?_, by decide⟩
  intro i j hij hj
  simp only [flagC, decide_eq_true_eq] at hj ⊢
  omega

/-- C8: the session log and the persisted corpus are fixed by the merge
value computed before `verify_costs` runs — they never depend on the
verifier — and the verifier's in-memory result can genuinely differ from
the persisted corpus (its `exact_costs`/`p_correct` assignments never reach
the file). -/
theorem results_written_before_verification :
    (∀ existing job_results : List JobResult,
      (mainTail existing job_results).sessionLog = job_results
        ∧ (mainTail existing job_results).persisted
            = mergeResults existing job_results
        ∧ (mainTail existing job_results).verified
            = verify_costs (mergeResults existing job_results))
    ∧ (∃ existing job_results out,
        (mainTail existing job_results).verified = .ok out
          ∧ out ≠ (mainTail existing job_results).persisted) :=
  ⟨fun _ _ => ⟨rfl, rfl, rfl⟩,
   ⟨[], resultsW, [RE, RE2, updateResult RA oA [3, 1, 4]],
     by decide, by decide⟩⟩

/-! ## Verifier lemmas -/

/-- Lemma: `updateOutput` does not change the costs. -/
theorem updateOutput_costs (o : JobOutput) (c : List Int) :
    (updateOutput o c).costs = o.costs := rfl

/-- Lemma: `updateOutput` does not change exactness. -/
theorem updateOutput_is_exact (o : JobOutput) (c : List Int) :
    (updateOutput o c).is_exact = o.is_exact := rfl

/-- A second update overwrites the first entirely. -/
theorem updateOutput_updateOutput (o : JobOutput) (c c' : List Int) :
    updateOutput (updateOutput o c) c' = updateOutput o c' := rfl

/-- Unfolding of the reference predicate. -/
theorem isExactRef_iff (j : Job) (ref : JobResult) :
    isExactRef j ref = true ↔
      (ref.job.same_input j = true
        ∧ ∃ o, ref.output = .ok o ∧ o.is_exact = true) := by
  unfold isExactRef
  rcases h : ref.output with e | o <;> simp [h, Bool.and_eq_true]

/-- A non-reference entry leaves the state unchanged. -/
theorem refStep_not_matching (j : Job) (st : JobOutput) (ref : JobResult)
    (h : isExactRef j ref = false) : refStep j st ref = .ok st := by
  unfold refStep
  rcases ho : ref.output with e | o
  · by_cases hs : ref.job.same_input j = false <;> simp [hs, ho]
  · by_cases hs : ref.job.same_input j = false
    · simp [hs]
    · have hstrue : ref.job.same_input j = true := by
        simpa using hs
      have : o.is_exact = false := by
        simpa [isExactRef, ho, hstrue] using h
      simp [hs, ho, this]

/-- On a reference entry, `refStep` is the assert-lengths /
assert-or-update conditional. -/
theorem refStep_matching (j : Job) (st : JobOutput) (ref : JobResult)
    (h : isExactRef j ref = true) :
    refStep j st ref =
      if st.costs.length = (outputCosts ref).length then
        (if st.is_exact = true then
          (if st.costs = outputCosts ref then .ok st
           else .error (.exactMismatch j ref.job))
         else .ok (updateOutput st (outputCosts ref)))
      else .error (.lenMismatch j ref.job) := by
  rw [isExactRef_iff] at h
  obtain ⟨hs, o, ho, hex⟩ := h
  have hs' : ¬ ref.job.same_input j = false := by simp [hs]
  have hc : outputCosts ref = o.costs := by simp [outputCosts, ho]
  rw [hc]
  simp only [refStep, ho, if_neg hs']
  rw [if_neg (by simp [hex])]
  by_cases hlen : st.costs.length = o.costs.length
  · rw [if_neg (not_not_intro hlen), if_pos hlen]
    by_cases hie : st.is_exact = true
    · rw [if_pos hie, if_pos hie]
      by_cases hco : st.costs = o.costs
      · rw [if_neg (not_not_intro hco), if_pos hco]
      · rw [if_pos hco, if_neg hco]
    · rw [if_neg hie, if_neg hie]
  · rw [if_pos hlen, if_neg hlen]

/-- A successful `refStep` never changes costs or exactness. -/
theorem refStep_ok_pres (j : Job) (st : JobOutput) (ref : JobResult)
    (st' : JobOutput) (h : refStep j st ref = .ok st') :
    st'.costs = st.costs ∧ st'.is_exact = st.is_exact := by
  by_cases m : isExactRef j ref = true
  · rw [refStep_matching j st ref m] at h
    split_ifs at h <;>
      first
      | exact Except.noConfusion h
      | (obtain rfl := Except.ok.inj h; exact ⟨rfl, rfl⟩)
  · rw [refStep_not_matching j st ref (Bool.of_not_eq_true m)] at h
    obtain rfl := Except.ok.inj h
    exact ⟨rfl, rfl⟩

/-- A successful `refFold` never changes costs or exactness. -/
theorem refFold_ok_pres (j : Job) (refs : List JobResult) :
    ∀ st st' : JobOutput, refFold j st refs = .ok st' →
      st'.costs = st.costs ∧ st'.is_exact = st.is_exact := by
  induction refs with
  | nil =>
    intro st st' h
    obtain rfl := Except.ok.inj h
    exact ⟨rfl, rfl⟩
  | cons ref rest ih =>
    intro st st' h
    simp only [refFold] at h
    rcases hstep : refStep j st ref with e | st1
    · rw [hstep] at h; exact Except.noConfusion h
    · rw [hstep] at h
      have h1 := refStep_ok_pres j st ref st1 hstep
      have h2 := ih st1 st' h
      exact ⟨h2.1.trans h1.1, h2.2.trans h1.2⟩

/-- For an exact state, a successful `refFold` leaves the state unchanged
and has passed the equal-costs assertion against every reference. -/
theorem refFold_exact (j : Job) (refs : List JobResult) :
    ∀ st st' : JobOutput, st.is_exact = true → refFold j st refs = .ok st' →
      st' = st ∧ ∀ ref ∈ refs, isExactRef j ref = true →
        st.costs = outputCosts ref := by
  induction refs with
  | nil =>
    intro st st' _ h
    obtain rfl := Except.ok.inj h
    exact ⟨rfl, by simp⟩
  | cons ref rest ih =>
    intro st st' hex h
    simp only [refFold] at h
    rcases hstep : refStep j st ref with e | st1
    · rw [hstep] at h; exact Except.noConfusion h
    · rw [hstep] at h
      by_cases m : isExactRef j ref = true
      · rw [refStep_matching j st ref m] at hstep
        split_ifs at hstep with hlen hco
        · obtain rfl := Except.ok.inj hstep
          have hr := ih st st' hex h
          refine ⟨hr.1, ?_⟩
          intro ref' hmem hm
          rcases List.mem_cons.mp hmem with rfl | hmem'
          · exact hco
          · exact hr.2 ref' hmem' hm
      · rw [refStep_not_matching j st ref (Bool.of_not_eq_true m)] at hstep
        obtain rfl := Except.ok.inj hstep
        have hr := ih st st' hex h
        refine ⟨hr.1, ?_⟩
        intro ref' hmem hm
        rcases List.mem_cons.mp hmem with rfl | hmem'
        · exact absurd hm m
        · exact hr.2 ref' hmem' hm

/-- Prepending keeps a known last element. -/
theorem getLast?_cons_of_some {α : Type} (a : α) (l : List α) (b : α)
    (h : l.getLast? = some b) : (a :: l).getLast? = some b := by
  cases l with
  | nil => exact absurd h (by simp)
  | cons c l' => rw [List.getLast?_cons_cons]; exact h

/-- Lemma: `find?` returns the head of the filtered list. -/
theorem find?_eq_head?_filter {α : Type} (p : α → Bool) (l : List α) :
    l.find? p = (l.filter p).head? := by
  induction l with
  | nil => rfl
  | cons a l ih =>
    by_cases h : p a = true
    · rw [List.find?_cons_of_pos l h, List.filter_cons_of_pos h,
        List.head?_cons]
    · rw [List.find?_cons_of_neg l h, List.filter_cons_of_neg h, ih]

/-- For an approximate state, a successful `refFold` has passed the length
assertion against every reference, and the final state is unchanged when
there is no reference, and otherwise is the update by the LAST reference
(the loop has no `break`). -/
theorem refFold_approx (j : Job) (refs : List JobResult) :
    ∀ st st' : JobOutput, st.is_exact = false → refFold j st refs = .ok st' →
      (∀ ref ∈ refs, isExactRef j ref = true →
        st.costs.length = (outputCosts ref).length)
      ∧ ((lastMatch refs j = none ∧ st' = st)
          ∨ (∃ ref, lastMatch refs j = some ref
              ∧ st' = updateOutput st (outputCosts ref))) := by
  induction refs with
  | nil =>
    intro st st' _ h
    obtain rfl := Except.ok.inj h
    exact ⟨by simp, Or.inl ⟨by simp [lastMatch], rfl⟩⟩
  | cons ref rest ih =>
    intro st st' hex h
    simp only [refFold] at h
    rcases hstep : refStep j st ref with e | st1
    · rw [hstep] at h; exact Except.noConfusion h
    · rw [hstep] at h
      by_cases m : isExactRef j ref = true
      · rw [refStep_matching j st ref m] at hstep
        split_ifs at hstep with hlen hie hco
        · simp [hex] at hie
        obtain rfl := Except.ok.inj hstep
        have hr := ih (updateOutput st (outputCosts ref)) st'
          (by rw [updateOutput_is_exact]; exact hex) h
        constructor
        · intro ref' hmem hm
          rcases List.mem_cons.mp hmem with rfl | hmem'
          · exact hlen
          · have := hr.1 ref' hmem' hm
            rwa [updateOutput_costs] at this
        · rcases hr.2 with ⟨hnone, hst⟩ | ⟨refL, hsome, hst⟩
          · refine Or.inr ⟨ref, ?_, hst⟩
            unfold lastMatch at hnone ⊢
            rw [List.filter_cons_of_pos m,
              List.getLast?_eq_none_iff.mp hnone]
            exact List.getLast?_singleton ref
          · refine Or.inr ⟨refL, ?_, by
              rw [hst, updateOutput_updateOutput]⟩
            unfold lastMatch at hsome ⊢
            rw [List.filter_cons_of_pos m]
            exact getLast?_cons_of_some ref _ refL hsome
      · rw [refStep_not_matching j st ref (Bool.of_not_eq_true m)] at hstep
        obtain rfl := Except.ok.inj hstep
        have hr := ih st st' hex h
        constructor
        · intro ref' hmem hm
          rcases List.mem_cons.mp hmem with rfl | hmem'
          · exact absurd hm m
          · exact hr.1 ref' hmem' hm
        · unfold lastMatch at hr ⊢
          rw [List.filter_cons_of_neg m]
          exact hr.2

/-- Replacing the output field by its own value is the identity. -/
theorem jobResult_eta (r : JobResult) (o : JobOutput)
    (ho : r.output = .ok o) : { r with output := Except.ok o } = r := by
  cases r with
  | mk j s res out => cases ho; rfl

/-- Lemma: `processOne` relates input and output by `refEquiv`. -/
theorem processOne_refEquiv (done : List JobResult) (r r' : JobResult)
    (h : processOne done r = .ok r') : refEquiv r r' := by
  rcases ho : r.output with e | o
  · simp only [processOne, ho] at h
    obtain rfl := Except.ok.inj h
    exact ⟨rfl, rfl, rfl, Or.inl ⟨e, ho, ho⟩⟩
  · simp only [processOne, ho] at h
    rcases hf : refFold r.job o done with e' | out'
    · rw [hf] at h; exact Except.noConfusion h
    · rw [hf] at h
      obtain rfl := Except.ok.inj h
      have hp := refFold_ok_pres r.job done o out' hf
      exact ⟨rfl, rfl, rfl, Or.inr ⟨o, out', ho, rfl, hp.1, hp.2⟩⟩

/-- Lemma: `refEquiv` preserves reference-eligibility, costs, exactness and the
job. -/
theorem refEquiv_pres (j : Job) {a b : JobResult} (h : refEquiv a b) :
    isExactRef j b = isExactRef j a ∧ outputCosts b = outputCosts a
      ∧ b.job = a.job ∧ isExactSuccess b = isExactSuccess a := by
  obtain ⟨hj, _, _, hout⟩ := h
  rcases hout with ⟨e, ha, hb⟩ | ⟨oa, ob, ha, hb, hc, hx⟩
  · simp [isExactRef, outputCosts, isExactSuccess, ha, hb, hj]
  · simp [isExactRef, outputCosts, isExactSuccess, ha, hb, hc, hx, hj]

/-- Lemma: `processOne` on an exact Success: unchanged, and the equal-costs
assertion has passed against every earlier reference. -/
theorem processOne_exact (done : List JobResult) (r r' : JobResult)
    (o : JobOutput) (ho : r.output = .ok o) (hex : o.is_exact = true)
    (h : processOne done r = .ok r') :
    r' = r ∧ ∀ ref ∈ done, isExactRef r.job ref = true →
      o.costs = outputCosts ref := by
  simp only [processOne, ho] at h
  rcases hf : refFold r.job o done with e' | out'
  · rw [hf] at h; exact Except.noConfusion h
  · rw [hf] at h
    obtain rfl := Except.ok.inj h
    have he := refFold_exact r.job done o out' hex hf
    refine ⟨?_, he.2⟩
    rw [he.1]
    exact jobResult_eta r o ho

/-- Lemma: `processOne` on an approximate Success: the length assertion has passed
against every earlier reference, and the entry is unchanged when no
reference exists and otherwise updated by the last reference. -/
theorem processOne_approx (done : List JobResult) (r r' : JobResult)
    (o : JobOutput) (ho : r.output = .ok o) (hex : o.is_exact = false)
    (h : processOne done r = .ok r') :
    (∀ ref ∈ done, isExactRef r.job ref = true →
      o.costs.length = (outputCosts ref).length)
    ∧ ((lastMatch done r.job = none ∧ r' = r)
        ∨ (∃ ref, lastMatch done r.job = some ref
            ∧ r' = updateResult r o (outputCosts ref))) := by
  simp only [processOne, ho] at h
  rcases hf : refFold r.job o done with e' | out'
  · rw [hf] at h; exact Except.noConfusion h
  · rw [hf] at h
    obtain rfl := Except.ok.inj h
    have ha := refFold_approx r.job done o out' hex hf
    refine ⟨ha.1, ?_⟩
    rcases ha.2 with ⟨hnone, hst⟩ | ⟨refL, hsome, hst⟩
    · refine Or.inl ⟨hnone, ?_⟩
      rw [hst]
      exact jobResult_eta r o ho
    · refine Or.inr ⟨refL, hsome, ?_⟩
      rw [hst]
      rfl

/-- Unfolding of `Job::same_input`. -/
theorem same_input_iff (a b : Job) :
    a.same_input b = true ↔ a.dataset = b.dataset ∧ a.costs = b.costs := by
  simp [Job.same_input, Bool.and_eq_true]

/-- Lemma: `same_input` is symmetric. -/
theorem same_input_symm {a b : Job} (h : a.same_input b = true) :
    b.same_input a = true := by
  rw [same_input_iff] at h ⊢
  exact ⟨h.1.symm, h.2.symm⟩

/-- Appending a processed entry preserves exact-consistency: the equal-costs
assertion inside `processOne` guarantees the new entry agrees with every
earlier exact reference on its input. -/
theorem exactConsistent_append (done : List JobResult) (r r' : JobResult)
    (hc : ExactConsistent done) (h : processOne done r = .ok r') :
    ExactConsistent (done ++ [r']) := by
  have hre := processOne_refEquiv done r r' h
  obtain ⟨hj, hst, hres, hout⟩ := hre
  intro a ha b hb oa ob hoa hob hexa hexb hsame
  rcases List.mem_append.mp ha with ha' | ha' <;>
    rcases List.mem_append.mp hb with hb' | hb'
  · exact hc a ha' b hb' oa ob hoa hob hexa hexb hsame
  · have hb'' : b = r' := by simpa using hb'
    subst hb''
    rcases hout with ⟨e, _, hre2⟩ | ⟨o, ob', hro, hr'o, hcosts, hex⟩
    · rw [hre2] at hob; exact Except.noConfusion hob
    · rw [hr'o] at hob
      obtain rfl := Except.ok.inj hob
      have hoex : o.is_exact = true := by rw [← hex]; exact hexb
      have hpe := processOne_exact done r b o hro hoex h
      have hma : isExactRef r.job a = true := by
        rw [isExactRef_iff]
        refine ⟨?_, oa, hoa, hexa⟩
        rw [hj] at hsame
        exact hsame
      have hoc : o.costs = oa.costs := by
        have := hpe.2 a ha' hma
        simpa [outputCosts, hoa] using this
      rw [hcosts, ← hoc]
  · have ha'' : a = r' := by simpa using ha'
    subst ha''
    rcases hout with ⟨e, _, hre2⟩ | ⟨o, oa', hro, hr'o, hcosts, hex⟩
    · rw [hre2] at hoa; exact Except.noConfusion hoa
    · rw [hr'o] at hoa
      obtain rfl := Except.ok.inj hoa
      have hoex : o.is_exact = true := by rw [← hex]; exact hexa
      have hpe := processOne_exact done r a o hro hoex h
      have hmb : isExactRef r.job b = true := by
        rw [isExactRef_iff]
        refine ⟨?_, ob, hob, hexb⟩
        rw [hj] at hsame
        exact same_input_symm hsame
      have hoc : o.costs = ob.costs := by
        have := hpe.2 b hb' hmb
        simpa [outputCosts, hob] using this
      rw [hcosts, hoc]
  · have ha'' : a = r' := by simpa using ha'
    have hb'' : b = r' := by simpa using hb'
    subst ha''; subst hb''
    rw [hoa] at hob
    obtain rfl := Except.ok.inj hob
    rfl

/-- Lemma: `verifyGo` preserves exact-consistency. -/
theorem verifyGo_consistent (todo : List JobResult) :
    ∀ done out, verifyGo done todo = .ok out →
      ExactConsistent done → ExactConsistent out := by
  induction todo with
  | nil =>
    intro done out h hc
    obtain rfl := Except.ok.inj h
    exact hc
  | cons r rest ih =>
    intro done out h hc
    simp only [verifyGo] at h
    rcases hp : processOne done r with e | r'
    · rw [hp] at h; exact Except.noConfusion h
    · rw [hp] at h
      exact ih (done ++ [r']) out h (exactConsistent_append done r r' hc hp)

/-- Positional characterization of a successful `verifyGo`: the output is
`done` followed by a list `proc` in which the `i`-th entry is exactly the
result of `processOne` on the `i`-th input entry against everything
processed before it. -/
theorem verifyGo_shape (todo : List JobResult) :
    ∀ done out, verifyGo done todo = .ok out →
      ∃ proc, out = done ++ proc ∧ proc.length = todo.length ∧
        ∀ i (hi : i < todo.length) (hi' : i < proc.length),
          processOne (done ++ proc.take i) (todo.get ⟨i, hi⟩)
            = .ok (proc.get ⟨i, hi'⟩) := by
  induction todo with
  | nil =>
    intro done out h
    obtain rfl := Except.ok.inj h
    exact ⟨[], by simp, rfl, fun i hi => absurd hi (Nat.not_lt_zero i)⟩
  | cons r rest ih =>
    intro done out h
    simp only [verifyGo] at h
    rcases hp : processOne done r with e | r'
    · rw [hp] at h; exact Except.noConfusion h
    · rw [hp] at h
      obtain ⟨proc', rfl, hlen, hchar⟩ := ih (done ++ [r']) out h
      refine ⟨r' :: proc', by simp, by simp [hlen], ?_⟩
      intro i hi hi'
      cases i with
      | zero => simpa using hp
      | succ j =>
        have hj : j < rest.length := by simpa using hi
        have hj' : j < proc'.length := by simpa using hi'
        have hcj := hchar j hj hj'
        simpa [List.append_assoc] using hcj

/-- The sort of `verify_costs` permutes the corpus. -/
theorem verifySort_perm (l : List JobResult) : (verifySort l).Perm l :=
  List.filter_append_perm (fun r => isExactSuccess r) l

/-- Structure of a successful `verify_costs` run: the output has the length
of the sorted input, entry `i` is `processOne` of sorted entry `i` against
the first `i` output entries, and the output is exact-consistent. -/
theorem verify_costs_shape (results out : List JobResult)
    (hok : verify_costs results = .ok out) :
    out.length = (verifySort results).length
    ∧ (∀ i (hi : i < (verifySort results).length) (hi' : i < out.length),
        processOne (out.take i) ((verifySort results).get ⟨i, hi⟩)
          = .ok (out.get ⟨i, hi'⟩))
    ∧ ExactConsistent out := by
  unfold verify_costs at hok
  obtain ⟨proc, hout, hlen, hchar⟩ :=
    verifyGo_shape (verifySort results) [] out hok
  rw [List.nil_append] at hout
  subst hout
  refine ⟨hlen, ?_, ?_⟩
  · intro i hi hi'
    have := hchar i hi hi'
    simpa using this
  · refine verifyGo_consistent (verifySort results) [] out hok ?_
    intro a ha
    exact (List.not_mem_nil a ha).elim

/-- Each output entry of `verify_costs` is `refEquiv` to the corresponding
sorted input entry. -/
theorem verify_costs_entry_refEquiv (results out : List JobResult)
    (hok : verify_costs results = .ok out) (i : Nat)
    (hi : i < (verifySort results).length) (hi' : i < out.length) :
    refEquiv ((verifySort results).get ⟨i, hi⟩) (out.get ⟨i, hi'⟩) :=
  processOne_refEquiv _ _ _ ((verify_costs_shape results out hok).2.1 i hi hi')

/-- C7: if `verify_costs` completes, any two Success entries of the corpus
with the same input and both exact have element-wise equal costs vectors
(a mismatch, or a costs-length difference with a reference, makes
`verify_costs` return the error naming both jobs instead of completing, so
no silently inconsistent exact results survive); moreover every Success
entry agrees in costs-length with every earlier eligible reference. -/
theorem verify_costs_exact_agreement (results out : List JobResult)
    (hok : verify_costs results = .ok out) :
    (∀ a ∈ results, ∀ b ∈ results, ∀ oa ob : JobOutput,
      a.output = .ok oa → b.output = .ok ob →
      oa.is_exact = true → ob.is_exact = true →
      a.job.same_input b.job = true → oa.costs = ob.costs)
    ∧ (∀ i (hi : i < (verifySort results).length) (o : JobOutput),
        ((verifySort results).get ⟨i, hi⟩).output = .ok o →
        ∀ ref ∈ (verifySort results).take i,
          isExactRef ((verifySort results).get ⟨i, hi⟩).job ref = true →
          o.costs.length = (outputCosts ref).length) := by
  obtain ⟨hlen, hchar, hcons⟩ := verify_costs_shape results out hok
  constructor
  · intro a ha b hb oa ob hoa hob hexa hexb hsame
    have ha2 : a ∈ verifySort results :=
      ((verifySort_perm results).mem_iff).mpr ha
    have hb2 : b ∈ verifySort results :=
      ((verifySort_perm results).mem_iff).mpr hb
    obtain ⟨⟨ia, hia⟩, hga⟩ := List.mem_iff_get.mp ha2
    obtain ⟨⟨ib, hib⟩, hgb⟩ := List.mem_iff_get.mp hb2
    have hia' : ia < out.length := by omega
    have hib' : ib < out.length := by omega
    have hrea := verify_costs_entry_refEquiv results out hok ia hia hia'
    have hreb := verify_costs_entry_refEquiv results out hok ib hib hib'
    rw [hga] at hrea
    rw [hgb] at hreb
    obtain ⟨hja, _, _, houta⟩ := hrea
    obtain ⟨hjb, _, _, houtb⟩ := hreb
    rcases houta with ⟨e, ha1, _⟩ | ⟨oa0, oa2, ha1, ha2', hca, hxa⟩
    · rw [ha1] at hoa; exact Except.noConfusion hoa
    rcases houtb with ⟨e, hb1, _⟩ | ⟨ob0, ob2, hb1, hb2', hcb, hxb⟩
    · rw [hb1] at hob; exact Except.noConfusion hob
    rw [ha1] at hoa
    obtain rfl := Except.ok.inj hoa
    rw [hb1] at hob
    obtain rfl := Except.ok.inj hob
    have hcall := hcons (out.get ⟨ia, hia'⟩) (List.get_mem out ia hia')
      (out.get ⟨ib, hib'⟩) (List.get_mem out ib hib') oa2 ob2 ha2' hb2'
      (by rw [hxa]; exact hexa) (by rw [hxb]; exact hexb)
      (by rw [hja, hjb]; exact hsame)
    rw [hca, hcb] at hcall
    exact hcall
  · intro i hi o ho ref href hm
    have hi' : i < out.length := by omega
    have hp := hchar i hi hi'
    obtain ⟨⟨k, hk⟩, hgk⟩ := List.mem_iff_get.mp href
    have hk2 : k < (verifySort results).length := by
      rw [List.length_take] at hk; omega
    have hki : k < i := by
      rw [List.length_take] at hk; omega
    have hk' : k < out.length := by omega
    have hgk2 : (verifySort results).get ⟨k, hk2⟩ = ref := by
      rw [← hgk]
      simp [List.get_eq_getElem, List.getElem_take]
    have hrek := verify_costs_entry_refEquiv results out hok k hk2 hk'
    rw [hgk2] at hrek
    have hpres := refEquiv_pres ((verifySort results).get ⟨i, hi⟩).job hrek
    have hmem2 : out.get ⟨k, hk'⟩ ∈ out.take i := by
      rw [List.mem_iff_get]
      refine ⟨⟨k, by rw [List.length_take]; omega⟩, ?_⟩
      simp [List.get_eq_getElem, List.getElem_take]
    have hm2 : isExactRef ((verifySort results).get ⟨i, hi⟩).job
        (out.get ⟨k, hk'⟩) = true := by rw [hpres.1]; exact hm
    rcases hxo : o.is_exact with _ | _
    · have hap := processOne_approx (out.take i) _ _ o ho hxo hp
      have := hap.1 (out.get ⟨k, hk'⟩) hmem2 hm2
      rwa [hpres.2.1] at this
    · have hex := processOne_exact (out.take i) _ _ o ho hxo hp
      have := hex.2 (out.get ⟨k, hk'⟩) hmem2 hm2
      rw [hpres.2.1] at this
      rw [this]

/-- Lemma: `firstRefCosts` through filter-then-map. -/
theorem firstRefCosts_eq (l : List JobResult) (j : Job) :
    firstRefCosts l j
      = ((l.filter (fun ref => isExactRef j ref)).map outputCosts).head? := by
  unfold firstRefCosts
  rw [find?_eq_head?_filter, List.head?_map]

/-- Lemma: `lastMatch` through filter-then-map. -/
theorem lastMatch_map (l : List JobResult) (j : Job) :
    (lastMatch l j).map outputCosts
      = ((l.filter (fun ref => isExactRef j ref)).map outputCosts).getLast? := by
  unfold lastMatch
  rw [List.getLast?_map]

/-- If all elements of a list are equal, its head and last agree. -/
theorem head?_eq_getLast?_of_all_eq {α : Type} (xs : List α)
    (h : ∀ x ∈ xs, ∀ y ∈ xs, x = y) : xs.head? = xs.getLast? := by
  cases xs with
  | nil => rfl
  | cons a t =>
    have hne : (a :: t) ≠ [] := by simp
    rw [List.head?_cons, List.getLast?_eq_getLast _ hne]
    exact congrArg some (h a (by simp) _ (List.getLast_mem hne))

/-- Pointwise `refEquiv` lists have the same references with the same
costs. -/
theorem filter_map_eq_of_refEquiv (j : Job) :
    ∀ (l l' : List JobResult), l.length = l'.length →
      (∀ k (hk : k < l.length) (hk' : k < l'.length),
        refEquiv (l.get ⟨k, hk⟩) (l'.get ⟨k, hk'⟩)) →
      (l'.filter (fun ref => isExactRef j ref)).map outputCosts
        = (l.filter (fun ref => isExactRef j ref)).map outputCosts := by
  intro l
  induction l with
  | nil =>
    intro l' hlen _
    have : l' = [] := List.length_eq_zero.mp hlen.symm
    subst this
    rfl
  | cons a t ih =>
    intro l' hlen hr
    cases l' with
    | nil => simp at hlen
    | cons b t2 =>
      have h0 : refEquiv a b := by simpa using hr 0 (by simp) (by simp)
      have hpres := refEquiv_pres j h0
      have hrest := ih t2 (by simpa using hlen) (fun k hk hk' => by
        have := hr (k + 1) (by simpa using Nat.succ_lt_succ hk)
          (by simpa using Nat.succ_lt_succ hk')
        simpa using this)
      by_cases hm : isExactRef j a = true
      · rw [List.filter_cons_of_pos hm,
          List.filter_cons_of_pos (by rw [hpres.1]; exact hm),
          List.map_cons, List.map_cons, hrest, hpres.2.1]
      · rw [List.filter_cons_of_neg hm,
          List.filter_cons_of_neg (by rw [hpres.1]; exact hm), hrest]

/-- In an exact-consistent corpus all references for one input share one
costs vector. -/
theorem consistent_refcosts_eq (l : List JobResult) (hc : ExactConsistent l)
    (j : Job) (sub : List JobResult) (hsub : ∀ x ∈ sub, x ∈ l) :
    ∀ x ∈ (sub.filter (fun ref => isExactRef j ref)).map outputCosts,
    ∀ y ∈ (sub.filter (fun ref => isExactRef j ref)).map outputCosts,
      x = y := by
  intro x hx y hy
  obtain ⟨rx, hrx, rfl⟩ := List.mem_map.mp hx
  obtain ⟨ry, hry, rfl⟩ := List.mem_map.mp hy
  obtain ⟨hrx', hpx⟩ := List.mem_filter.mp hrx
  obtain ⟨hry', hpy⟩ := List.mem_filter.mp hry
  rw [isExactRef_iff] at hpx hpy
  obtain ⟨hsx, ox, hox, hexx⟩ := hpx
  obtain ⟨hsy, oy, hoy, hexy⟩ := hpy
  have hsxy : rx.job.same_input ry.job = true := by
    rw [same_input_iff] at hsx hsy ⊢
    exact ⟨hsx.1.trans hsy.1.symm, hsx.2.trans hsy.2.symm⟩
  have := hc rx (hsub rx hrx') ry (hsub ry hry') ox oy hox hoy hexx hexy hsxy
  simp [outputCosts, hox, hoy, this]

/-- C2: when `verify_costs` completes, each approximate Success entry `r`
(at position `i` of the exact-first stable sort) with at least one earlier
Success reference of the same input (same dataset and same cost model) and
`is_exact` ends up with `exact_costs` a clone of the FIRST such reference's
costs and `p_correct` the fraction of positions where `r`'s costs agree
with that first reference's costs (`updateResult`); entries with no such
reference are left unchanged. -/
theorem verify_costs_first_reference (results out : List JobResult)
    (hok : verify_costs results = .ok out)
    (i : Nat) (hi : i < (verifySort results).length) (o : JobOutput)
    (ho : ((verifySort results).get ⟨i, hi⟩).output = .ok o)
    (happrox : o.is_exact = false) :
    ∃ hi' : i < out.length,
      (firstRefCosts ((verifySort results).take i)
            ((verifySort results).get ⟨i, hi⟩).job = none
          ∧ out.get ⟨i, hi'⟩ = (verifySort results).get ⟨i, hi⟩)
      ∨ (∃ c, firstRefCosts ((verifySort results).take i)
            ((verifySort results).get ⟨i, hi⟩).job = some c
          ∧ out.get ⟨i, hi'⟩
              = updateResult ((verifySort results).get ⟨i, hi⟩) o c) := by
  obtain ⟨hlen, hchar, hcons⟩ := verify_costs_shape results out hok
  have hi' : i < out.length := by omega
  refine ⟨hi', ?_⟩
  have hp := hchar i hi hi'
  have hap := processOne_approx (out.take i)
    ((verifySort results).get ⟨i, hi⟩) _ o ho happrox hp
  have hmapeq := filter_map_eq_of_refEquiv
    ((verifySort results).get ⟨i, hi⟩).job
    ((verifySort results).take i) (out.take i)
    (by rw [List.length_take, List.length_take]; omega)
    (fun k hk hk' => by
      have hks : k < (verifySort results).length := by
        rw [List.length_take] at hk; omega
      have hko : k < out.length := by
        rw [List.length_take] at hk'; omega
      have := verify_costs_entry_refEquiv results out hok k hks hko
      simpa [List.get_eq_getElem, List.getElem_take] using this)
  have hall := consistent_refcosts_eq out hcons
    ((verifySort results).get ⟨i, hi⟩).job (out.take i)
    (fun x hx => List.mem_of_mem_take hx)
  have hheadlast := head?_eq_getLast?_of_all_eq _ hall
  rcases hap.2 with ⟨hnone, hunch⟩ | ⟨refL, hsome, hupd⟩
  · left
    refine ⟨?_, hunch⟩
    rw [firstRefCosts_eq, ← hmapeq, hheadlast, ← lastMatch_map, hnone]
    rfl
  · right
    refine ⟨outputCosts refL, ?_, hupd⟩
    rw [firstRefCosts_eq, ← hmapeq, hheadlast, ← lastMatch_map, hsome]
    rfl

/-- Witness for C1: with an empty prior corpus every candidate is kept. -/
theorem incremental_keep_iff_witness :
    (j0, s0) ∈ planJobs true false [] [(j0, s0)] :=
  (incremental_keep_iff false [] [(j0, s0)] j0 s0).mpr ⟨by decide, by simp⟩

/-- Witness for C4: the larger generated job is skipped, not executed. -/
theorem worker_skip_iff_witness :
    workerStep exec0 accW jobBig s0 = skippedResult jobBig s0 :=
  (worker_skip_iff accW jobBig).2 exec0 s0 (by decide)

/-- Witness for C10 at the unit cost model. -/
theorem aligner_constructor_assertions_witness :
    (edlibDefault cmUnit false 0).isOk = true
    ∧ (parasailStripedDefault cmUnit true 0).isOk = false := by
  have h := aligner_constructor_assertions
  constructor
  · rw [h.1 cmUnit false 0]; decide
  · rw [h.2 cmUnit true 0]; decide

/-- Witness for C8 on a concrete corpus. -/
theorem results_written_before_verification_witness :
    (mainTail [] resultsW).persisted = resultsW := by
  have h := (results_written_before_verification.1 [] resultsW).2.1
  rw [h]
  decide

/-- Witness for C7 on the two concrete exact rows. -/
theorem verify_costs_exact_agreement_witness : oE.costs = oE2.costs :=
  (verify_costs_exact_agreement resultsW
      [RE, RE2, updateResult RA oA [3, 1, 4]] (by decide)).1
    RE (by decide) RE2 (by decide) oE oE2 rfl rfl rfl rfl (by decide)

/-- Witness for C2: the approximate row is updated with the first exact
reference's costs. -/
theorem verify_costs_first_reference_witness :
    ([RE, RE2, updateResult RA oA [3, 1, 4]] : List JobResult).get
        ⟨2, by decide⟩
      = updateResult RA oA [3, 1, 4] := by
  obtain ⟨hi', hcase⟩ := verify_costs_first_reference resultsW
    [RE, RE2, updateResult RA oA [3, 1, 4]] (by decide) 2 (by decide) oA
    (by decide) (by decide)
  rcases hcase with ⟨hnone, _⟩ | ⟨c, hsome, hupd⟩
  · exact absurd hnone (by decide)
  · have hc : some c = some [3, 1, 4] := by
      rw [← hsome]; decide
    rw [Option.some.inj hc] at hupd
    exact hupd
